import Mathlib

/-!
# Table key codec, modification log codec and placement-rule client

A shallow embedding of the Go packages `table-placement-rule`, `examples/test-engine`
and `examples/test-placement-rule`.

Conventions of the embedding:

* a Go `byte` is a `Nat` (every byte the code produces is below 256), a `[]byte` is a
  `List Nat`, and `bytes.Compare(a, b) < 0` is the lexicographic order `a < b` on lists;
* a Go `int64` is an `Int`; the conversion `uint64(v)` is `(v % 2 ^ 64).toNat` and a
  conversion to a signed integer wraps through `wrapInt64`;
* a Go `panic(x)` is the `Except.error x` result of the embedded function.
-/

namespace ClientGo

/-! ## Machine integers -/

/-- The signed 64-bit range of a Go `int64`. -/
def IsInt64 (v : Int) : Prop := -(2 : Int) ^ 63 ≤ v ∧ v < (2 : Int) ^ 63

instance (v : Int) : Decidable (IsInt64 v) := by
  unfold IsInt64; exact inferInstance

/-- The largest `int64`. -/
def maxInt64 : Int := 2 ^ 63 - 1

/-- The smallest `int64`. -/
def minInt64 : Int := -(2 : Int) ^ 63

/-- Two's complement wrap-around of a mathematical integer into `int64`. -/
def wrapInt64 (x : Int) : Int := (x + 2 ^ 63) % 2 ^ 64 - 2 ^ 63

/-- The Go conversion `uint64(v)` of an `int64`. -/
def toUint64 (v : Int) : Nat := (v % 2 ^ 64).toNat

/-- Subtraction of two `byte` values, modulo 256 as in Go. -/
def subByte (a b : Nat) : Nat := (a + 256 - b % 256) % 256

/-! ## Package `codec` -/

namespace codec

/-- Modelled from the spec: the group size of the memcomparable byte encoding of the
absent package `codec` (8-byte groups). -/
def encGroupSize : Nat := 8

/-- Modelled from the spec: the marker byte of a full group in the absent package `codec`. -/
def encMarker : Nat := 0xFF

/-- Modelled from the spec: the padding byte of the absent package `codec`. -/
def encPad : Nat := 0x0

/-- Modelled from the spec: the padding buffer `make([]byte, encGroupSize)` of the absent
package `codec`. -/
def pads : List Nat := List.replicate encGroupSize encPad

/-- Modelled from the spec: the loop of the absent `codec.EncodeBytes`,
`for idx := 0; idx <= dLen; idx += encGroupSize`, which appends to `result` one group of
eight bytes (zero padded) followed by the marker `encMarker - padCount`. The first argument
bounds the number of iterations. -/
def EncodeBytes.loop (b : List Nat) : Nat → Nat → List Nat → List Nat
  | 0, _, result => result
  | fuel + 1, idx, result =>
    if idx ≤ b.length then
      let remain := b.length - idx
      if remain ≥ encGroupSize then
        EncodeBytes.loop b fuel (idx + encGroupSize)
          (result ++ (b.drop idx).take encGroupSize ++ [subByte encMarker 0])
      else
        let padCount := encGroupSize - remain
        EncodeBytes.loop b fuel (idx + encGroupSize)
          (result ++ b.drop idx ++ pads.take padCount ++ [subByte encMarker padCount])
    else result

/-- Modelled from the spec: the absent `codec.EncodeBytes`, the memcomparable encoding of a
byte string: the input is cut in groups of 8 bytes, the last group is padded with zero bytes
(a whole group of padding when the length is a multiple of 8) and every group is followed by
the marker `0xFF - padCount`. The loop runs `dLen / 8 + 1` times. -/
def EncodeBytes (b : List Nat) : List Nat :=
  EncodeBytes.loop b (b.length / encGroupSize + 1) 0 []

/-- Modelled from the spec: the sign mask of the absent `codec.EncodeInt`. -/
def signMask : Nat := 0x8000000000000000

/-- Modelled from the spec: the absent `codec.EncodeIntToCmpUint`, `uint64(v) ^ signMask`:
the sign bit of the two's complement representation is flipped. -/
def EncodeIntToCmpUint (v : Int) : Nat := Nat.xor (toUint64 v) signMask

/-- The eight bytes written by `binary.BigEndian.PutUint64`. -/
def PutUint64BE (u : Nat) : List Nat :=
  [u / 2 ^ 56 % 256, u / 2 ^ 48 % 256, u / 2 ^ 40 % 256, u / 2 ^ 32 % 256,
   u / 2 ^ 24 % 256, u / 2 ^ 16 % 256, u / 2 ^ 8 % 256, u % 256]

/-- Modelled from the spec: the absent `codec.EncodeInt`, which appends to `b` the
fixed-width (8 bytes) big-endian encoding of `v` with the sign bit flipped. -/
def EncodeInt (b : List Nat) (v : Int) : List Nat :=
  b ++ PutUint64BE (EncodeIntToCmpUint v)

/-- Modelled from the spec: the table prefix byte `t` of the absent package `codec`. -/
def tablePrefix : List Nat := [0x74]

/-- Modelled from the spec: the record separator `_r` of the absent package `codec`. -/
def recordPrefixSep : List Nat := [0x5f, 0x72]

/-- Modelled from the spec: the absent `codec.GenTableRecordPrefix`, the record prefix
`t[tableID]_r` of a table, with the table identifier encoded by `EncodeInt`. -/
def GenTableRecordPrefix (tableID : Int) : List Nat :=
  EncodeInt tablePrefix tableID ++ recordPrefixSep

/-- Modelled from the spec: the step from a prefix to the next prefix of the same length,
used by the absent `codec.GenNextTablePrefix`. The byte string is read as a big-endian
number and incremented by one, each byte modulo 256; the flag tells that every byte wrapped
around to zero. -/
def byteIncrement : List Nat → List Nat × Bool
  | [] => ([], true)
  | b :: bs =>
    match byteIncrement bs with
    | (r, true) => ((b + 1) % 256 :: r, (b + 1) % 256 == 0)
    | (r, false) => (b :: r, false)

/-- Modelled from the spec: the absent `codec.GenNextTablePrefix`, the prefix that follows
the table prefix `t[tableID]`. The spec gives no byte rule for it and asks for the prefix of
the next table identifier, above every key of `tableID`: it is the table prefix incremented
by one as a big-endian number, which is `t[tableID+1]` below the largest identifier and the
byte `0x75` followed by eight zero bytes at the largest one. -/
def GenNextTablePrefix (tableID : Int) : List Nat :=
  (byteIncrement (EncodeInt tablePrefix tableID)).1

end codec

/-! ## Package `table_placement_rule`: table keys (`table.go`) -/

/-- The constant `SchemaColTableID`. -/
def SchemaColTableID : Int := 12345

/-- The Go struct `TableKey`. -/
structure TableKey where
  key : List Nat
  tableID : Int
  encoded : List Nat
deriving DecidableEq, Repr

/-- The Go struct `TableKeyHandle`, which embeds a `TableKey`. -/
structure TableKeyHandle where
  toTableKey : TableKey
  handleID : Int
deriving DecidableEq, Repr

/-- The Go function `NewTableKey`. -/
def NewTableKey (tableID : Int) (key : List Nat) : TableKey :=
  { key := key
    tableID := tableID
    encoded := codec.EncodeBytes (codec.GenTableRecordPrefix tableID ++ key) }

/-- The Go function `NewTableKeyByHandle`. -/
def NewTableKeyByHandle (tableID : Int) (handleID : Int) : TableKeyHandle :=
  let handleKey := codec.EncodeInt [] handleID
  { toTableKey := NewTableKey tableID handleKey
    handleID := handleID }

/-- The Go method `(*TableKey).EncodeBytes`. -/
def TableKey.EncodeBytes (k : TableKey) : List Nat := k.encoded

/-- The Go function `MakeTableRecordStartEndKey`. -/
def MakeTableRecordStartEndKey (tableId : Int) : List Nat × List Nat :=
  ((NewTableKey tableId []).encoded, codec.EncodeBytes (codec.GenNextTablePrefix tableId))

/-! ## Package `table_placement_rule`: the placement-rule client

The Go standard library is outside the repository. A JSON text is represented by the JSON
value it writes, an HTTP exchange by the request value handed to the client and the response
value it returns, and the network behind `http.DefaultClient` by a function of the requests
issued so far. -/

/-- A JSON value; an object keeps its members in the order in which they are written. -/
inductive JSON where
  | null
  | bool (b : Bool)
  | num (n : Int)
  | str (s : String)
  | arr (xs : List JSON)
  | obj (members : List (String × JSON))

/-- The member names of a JSON object, in order. -/
def JSON.keys : JSON → List String
  | .obj members => members.map Prod.fst
  | _ => []

/-- The Go struct `RuleGroup`. -/
structure RuleGroup where
  ID : String
  Index : Int
  Override : Bool
deriving DecidableEq, Repr

/-- The Go struct `LabelConstraint`. -/
structure LabelConstraint where
  Key : String
  Op : String
  Values : List String
deriving DecidableEq, Repr

/-- The Go struct `Rule`; `group` is the unexported runtime pointer. -/
structure Rule where
  GroupID : String
  ID : String
  Index : Int
  Override : Bool
  StartKeyHex : String
  EndKeyHex : String
  Role : String
  Count : Int
  LabelConstraints : List LabelConstraint
  LocationLabels : List String
  IsolationLevel : String
  group : Option RuleGroup
deriving DecidableEq, Repr

/-- The Go struct `GroupBundle`; `Rules` is a slice of pointers, and both the slice and
each pointer may be `nil`. -/
structure GroupBundle where
  ID : String
  Index : Int
  Override : Bool
  Rules : Option (List (Option Rule))
deriving DecidableEq, Repr

namespace json

/-- A struct field tagged `omitempty`: it is left out when the value is the empty value of
its type. -/
def omitempty (isEmpty : Bool) (name : String) (v : JSON) : List (String × JSON) :=
  if isEmpty then [] else [(name, v)]

/-- What `json.Marshal` writes for a `LabelConstraint`, by the struct tags. -/
def MarshalLabelConstraint (c : LabelConstraint) : JSON :=
  .obj (omitempty (c.Key == "") "key" (.str c.Key)
    ++ omitempty (c.Op == "") "op" (.str c.Op)
    ++ omitempty c.Values.isEmpty "values" (.arr (c.Values.map .str)))

/-- What `json.Marshal` writes for a `Rule`, by the struct tags; the unexported field
`group` is not written. -/
def MarshalRule (r : Rule) : JSON :=
  .obj ([("group_id", .str r.GroupID), ("id", .str r.ID)]
    ++ omitempty (r.Index == 0) "index" (.num r.Index)
    ++ omitempty (r.Override == false) "override" (.bool r.Override)
    ++ [("start_key", .str r.StartKeyHex), ("end_key", .str r.EndKeyHex),
        ("role", .str r.Role), ("count", .num r.Count)]
    ++ omitempty r.LabelConstraints.isEmpty "label_constraints"
        (.arr (r.LabelConstraints.map MarshalLabelConstraint))
    ++ omitempty r.LocationLabels.isEmpty "location_labels"
        (.arr (r.LocationLabels.map .str))
    ++ omitempty (r.IsolationLevel == "") "isolation_level" (.str r.IsolationLevel))

/-- What `json.Marshal` writes for a `*Rule`: `null` for the `nil` pointer. -/
def MarshalRulePtr : Option Rule → JSON
  | none => .null
  | some r => MarshalRule r

/-- What `json.Marshal` writes for a `GroupBundle`, by the struct tags; a `nil` slice is
written as `null`. -/
def MarshalGroupBundle (g : GroupBundle) : JSON :=
  .obj [("group_id", .str g.ID), ("group_index", .num g.Index),
    ("group_override", .bool g.Override),
    ("rules", match g.Rules with
      | none => .null
      | some rs => .arr (rs.map MarshalRulePtr))]

end json

/-- The Go errors the client handles. -/
inductive GoError where
  | syntaxError (msg : String)
  | unmarshalTypeError (msg : String)
  | other (msg : String)
  | JSONError (Err : GoError)
  | withStack (err : GoError)
deriving DecidableEq, Repr

/-- The value a Go `panic` carries: an error, a string, or the runtime error of a `nil`
pointer dereference. -/
inductive PanicValue where
  | err (e : GoError)
  | str (s : String)
  | nilDereference
deriving DecidableEq, Repr

/-- The Go function `tagJSONError`. -/
def tagJSONError (err : GoError) : GoError :=
  match err with
  | .syntaxError _ => .JSONError err
  | .unmarshalTypeError _ => .JSONError err
  | _ => err

/-- What `json.Unmarshal(b, &bundles)` makes of the bytes of a response body: an error, the
`nil` pointer for the JSON literal `null`, or the decoded slice of group bundles. -/
inductive Unmarshalled where
  | failure (err : GoError)
  | null
  | value (bundles : List GroupBundle)
deriving DecidableEq, Repr

/-- The body of an HTTP response, an `io.ReadCloser`: what `ioutil.ReadAll` returns (the
bytes, described by what `json.Unmarshal` makes of them) and what `Close` returns. -/
structure ResponseBody where
  ReadAll : Except GoError Unmarshalled
  Close : Option GoError

/-- The Go struct `http.Response`, with the fields the client reads. -/
structure Response where
  StatusCode : Int
  Status : String
  Body : ResponseBody

/-- The Go struct `http.Request`, with the fields the client sets; the body is the JSON
value whose text is sent. -/
structure Request where
  Method : String
  URL : String
  Header : List (String × String)
  Body : Option JSON

/-- The client `http.DefaultClient` with the network behind it: `urlError` is the error of
parsing a URL, if any, and `RoundTrip history req` is the answer to `req` after the requests
of `history`. -/
structure Client where
  urlError : String → Option GoError
  RoundTrip : List Request → Request → Except GoError Response

/-- A call of one of the exported functions of the client, with its arguments. -/
inductive Call where
  | SetGroup (pdUrl groupId : String)
  | SetRule (pdUrl groupId ruleId startKeyHex endKeyHex : String) (count : Int)
      (labelConstraints : List LabelConstraint)
  | DelRule (pdUrl groupId ruleId : String)
  | ShowGroups (pdUrl : String)
  | DelGroup (pdUrl groupId : String)
deriving DecidableEq, Repr

/-- A line printed by `fmt.Printf`, kept as the format and its arguments. -/
inductive Output where
  | setRule (body : JSON)
  | deleteRule (ruleId : String)
  | gotGroups (count : Nat) (buf : String)

/-- The state outside the program: the requests issued so far, the client functions entered
so far (both oldest first) and the lines printed. -/
structure World where
  sent : List Request
  calls : List Call
  stdout : List Output

/-- The world at the start of a run. -/
def World.init : World := { sent := [], calls := [], stdout := [] }

/-- Records the entry into a client function. -/
def World.enter (w : World) (c : Call) : World := { w with calls := w.calls ++ [c] }

/-- Records a printed line. -/
def World.print (w : World) (o : Output) : World := { w with stdout := w.stdout ++ [o] }

/-- The Go function `http.NewRequest`, for the methods the client uses. -/
def http.NewRequest (c : Client) (method url : String) (body : Option JSON) :
    Except GoError Request :=
  match c.urlError url with
  | some err => .error err
  | none => .ok { Method := method, URL := url, Header := [], Body := body }

/-- The Go method `(*http.Client).Do`: the request is issued and answered. -/
def Client.Do (c : Client) (req : Request) (w : World) : Except GoError Response × World :=
  (c.RoundTrip w.sent req, { w with sent := w.sent ++ [req] })

/-- The Go method `(*http.Client).Post`. -/
def Client.Post (c : Client) (url contentType : String) (body : JSON) (w : World) :
    Except GoError Response × World :=
  match http.NewRequest c "POST" url (some body) with
  | .error err => (.error err, w)
  | .ok req => c.Do { req with Header := [("Content-Type", contentType)] } w

/-- The Go method `(*http.Client).Get`. -/
def Client.Get (c : Client) (url : String) (w : World) : Except GoError Response × World :=
  match http.NewRequest c "GET" url none with
  | .error err => (.error err, w)
  | .ok req => c.Do req w

/-- The Go function `DeferClose`: the new value of `*err`. -/
def DeferClose (c : ResponseBody) (err : Option GoError) : Option GoError :=
  match c.Close, err with
  | some cerr, none => some (.withStack cerr)
  | _, _ => err

/-- The Go function `ReadJSON` on a response body, for the target `&bundles`: the error it
returns, or the value it leaves in `bundles` (`none` is the `nil` pointer). The result
parameter is unnamed, so the deferred `DeferClose` changes the local `err` only after the
returned value is fixed. -/
def ReadJSON (r : ResponseBody) : Except GoError (Option (List GroupBundle)) :=
  match r.ReadAll with
  | .error err => .error (.withStack err)
  | .ok b =>
    match b with
    | .failure err => .error (tagJSONError err)
    | .null => .ok none
    | .value bundles => .ok (some bundles)

/-- The URL of `SetGroup`. -/
def SetGroup.url (pdUrl groupId : String) : String :=
  let uri := "config/placement-rule"
  "http://" ++ pdUrl ++ "/pd/api/v1/" ++ uri ++ "/" ++ groupId

/-- The body of `SetGroup`: `json.Marshal` cannot fail on a `GroupBundle`. -/
def SetGroup.body (groupId : String) : JSON :=
  json.MarshalGroupBundle { ID := groupId, Index := 8888, Override := true, Rules := none }

/-- The Go function `SetGroup`. -/
def SetGroup (c : Client) (pdUrl groupId : String) (w : World) :
    Except PanicValue Unit × World :=
  let w := w.enter (.SetGroup pdUrl groupId)
  match c.Post (SetGroup.url pdUrl groupId) "application/json" (SetGroup.body groupId) w with
  | (.error err, w) => (.error (.err err), w)
  | (.ok resp, w) =>
    if resp.StatusCode ≠ 200 then (.error (.str resp.Status), w)
    else (.ok (), w)

/-- The URL of `SetRule`. -/
def SetRule.url (pdUrl : String) : String :=
  let uri := "config/rule"
  "http://" ++ pdUrl ++ "/pd/api/v1/" ++ uri

/-- The `Rule` value that `SetRule` marshals. -/
def SetRule.rule (groupId ruleId startKeyHex endKeyHex : String) (count : Int)
    (labelConstraints : List LabelConstraint) : Rule :=
  { GroupID := groupId, ID := ruleId, Index := 0, Override := true,
    StartKeyHex := startKeyHex, EndKeyHex := endKeyHex, Role := "voter", Count := count,
    LabelConstraints := labelConstraints, LocationLabels := [], IsolationLevel := "",
    group := none }

/-- The Go function `SetRule`. -/
def SetRule (c : Client) (pdUrl groupId ruleId startKeyHex endKeyHex : String) (count : Int)
    (labelConstraints : List LabelConstraint) (w : World) : Except PanicValue Unit × World :=
  let w := w.enter (.SetRule pdUrl groupId ruleId startKeyHex endKeyHex count labelConstraints)
  let body := json.MarshalRule
    (SetRule.rule groupId ruleId startKeyHex endKeyHex count labelConstraints)
  match c.Post (SetRule.url pdUrl) "application/json" body w with
  | (.error err, w) => (.error (.err err), w)
  | (.ok resp, w) =>
    if resp.StatusCode ≠ 200 then (.error (.str resp.Status), w)
    else (.ok (), w.print (.setRule body))

/-- The URL of `DelRule`. -/
def DelRule.url (pdUrl groupId ruleId : String) : String :=
  let uri := "config/rule"
  "http://" ++ pdUrl ++ "/pd/api/v1/" ++ uri ++ "/" ++ groupId ++ "/" ++ ruleId

/-- The Go function `DelRule`. -/
def DelRule (c : Client) (pdUrl groupId ruleId : String) (w : World) :
    Except PanicValue Unit × World :=
  let w := w.enter (.DelRule pdUrl groupId ruleId)
  match http.NewRequest c "DELETE" (DelRule.url pdUrl groupId ruleId) none with
  | .error err => (.error (.err err), w)
  | .ok req =>
    match c.Do req w with
    | (.error err, w) => (.error (.err err), w)
    | (.ok resp, w) =>
      if resp.StatusCode ≠ 200 then (.error (.str resp.Status), w)
      else (.ok (), w.print (.deleteRule ruleId))

/-- The URL of `ShowGroups`. -/
def ShowGroups.url (pdUrl : String) : String :=
  let uri := "config/placement-rule"
  "http://" ++ pdUrl ++ "/pd/api/v1/" ++ uri

/-- The Go function `ShowGroups`. The status code of the response is not read. -/
def ShowGroups (c : Client) (pdUrl : String) (w : World) : Except PanicValue Unit × World :=
  let w := w.enter (.ShowGroups pdUrl)
  match c.Get (ShowGroups.url pdUrl) w with
  | (.error err, w) => (.error (.err err), w)
  | (.ok resp, w) =>
    match ReadJSON resp.Body with
    | .error err => (.error (.err err), w)
    | .ok none => (.error .nilDereference, w)
    | .ok (some bundles) =>
      let buf := bundles.foldl (fun buf e => buf ++ e.ID ++ " ") ""
      (.ok (), w.print (.gotGroups bundles.length buf))

/-- The URL of `DelGroup`. -/
def DelGroup.url (pdUrl groupId : String) : String :=
  let uri := "config/placement-rule"
  "http://" ++ pdUrl ++ "/pd/api/v1/" ++ uri ++ "/" ++ groupId

/-- The Go function `DelGroup`. -/
def DelGroup (c : Client) (pdUrl groupId : String) (w : World) :
    Except PanicValue Unit × World :=
  let w := w.enter (.DelGroup pdUrl groupId)
  match http.NewRequest c "DELETE" (DelGroup.url pdUrl groupId) none with
  | .error err => (.error (.err err), w)
  | .ok req =>
    match c.Do req w with
    | (.error err, w) => (.error (.err err), w)
    | (.ok resp, w) =>
      if resp.StatusCode ≠ 200 then (.error (.str resp.Status), w)
      else (.ok (), w)

/-! ## Package `main` of `examples/test-placement-rule`: the driver -/

namespace hex

/-- The digits of `encoding/hex`. -/
def hextable : List Char := "0123456789abcdef".toList

/-- The Go function `hex.EncodeToString`: two lower-case digits for each byte. -/
def EncodeToString (src : List Nat) : String :=
  String.mk (src.flatMap fun v => [hextable.getD (v / 16) '0', hextable.getD (v % 16) '0'])

end hex

/-- The command line flags of the driver, after `flag.Parse`. -/
structure Flags where
  pdAddressArgv : String
  groupIdArgv : String
  tableIDArgv : Int
  engineLabelArgv : String
  replicaCount : Nat
  delGroup : Bool
  delRule : Bool
deriving DecidableEq, Repr

/-- Sequencing of two Go statements: the second runs when the first returns, and a panic of
the first ends the run. -/
def andThen (r : Except PanicValue Unit × World)
    (next : World → Except PanicValue Unit × World) : Except PanicValue Unit × World :=
  match r with
  | (.error p, w) => (.error p, w)
  | (.ok (), w) => next w

/-- The Go function `Main2` of `examples/test-placement-rule`. -/
def Main2 (c : Client) (flags : Flags) (w : World) : Except PanicValue Unit × World :=
  let pdUrl := flags.pdAddressArgv
  let groupId := flags.groupIdArgv
  let tableID := flags.tableIDArgv
  let ruleId := "table-" ++ toString tableID ++ "-r"
  let labelConstraints : List LabelConstraint :=
    [{ Key := "engine", Op := "in", Values := [flags.engineLabelArgv] }]
  let (startKey, endKey) := MakeTableRecordStartEndKey tableID
  andThen (ShowGroups c pdUrl w) fun w =>
  andThen (if flags.delGroup then DelGroup c pdUrl groupId w else SetGroup c pdUrl groupId w) fun w =>
  if flags.delRule then DelRule c pdUrl groupId ruleId w
  else SetRule c pdUrl groupId ruleId (hex.EncodeToString startKey) (hex.EncodeToString endKey)
    (wrapInt64 flags.replicaCount) labelConstraints w

/-! ## Properties of call sequences and sample servers -/

/-- The call is a `SetRule` for the group `g`. -/
def Call.isSetRuleFor (g : String) : Call → Bool
  | .SetRule _ groupId _ _ _ _ _ => groupId == g
  | _ => false

/-- The call is a `SetGroup` for the group `g`. -/
def Call.isSetGroupFor (g : String) : Call → Bool
  | .SetGroup _ groupId => groupId == g
  | _ => false

/-- In the sequence `calls`, every `SetRule` call for a group comes after a `SetGroup` call
for the same group. -/
def SetGroupBeforeSetRule (calls : List Call) : Prop :=
  ∀ (before after : List Call) (call : Call) (g : String),
    calls = before ++ call :: after → call.isSetRuleFor g = true →
    ∃ earlier ∈ before, earlier.isSetGroupFor g = true

/-- A response body whose text is the JSON array of the given group bundles. -/
def bundlesBody (bundles : List GroupBundle) : ResponseBody :=
  { ReadAll := .ok (.value bundles), Close := none }

/-- A server that accepts every URL and answers every request with the same status and
body. -/
def constantServer (code : Int) (status : String) (body : ResponseBody) : Client :=
  { urlError := fun _ => none
    RoundTrip := fun _ _ => .ok { StatusCode := code, Status := status, Body := body } }

/-- The flags of a run against `127.0.0.1:2379` with the default group, table, label and
replica count. -/
def sampleFlags (delGroup delRule : Bool) : Flags :=
  { pdAddressArgv := "127.0.0.1:2379", groupIdArgv := "test-engine-group",
    tableIDArgv := 12345, engineLabelArgv := "test_engine", replicaCount := 3,
    delGroup := delGroup, delRule := delRule }

/-! ## Package `main` of `examples/test-engine`: the modification log -/

/-- The constant `EngineDel` of type `EngineModifyType` (`1 + iota`, first of the block). -/
def EngineDel : Nat := 1 + 0

/-- The constant `EngineAdd` of type `EngineModifyType` (`1 + iota`, second of the block). -/
def EngineAdd : Nat := 1 + 1

/-- The Go struct `TableModifyDel`; the key is a pointer and may be `nil`. -/
structure TableModifyDel where
  key : Option TableKey
deriving DecidableEq, Repr

/-- The Go struct `TableModifyAdd`, which embeds a `TableModifyDel`. -/
structure TableModifyAdd where
  toTableModifyDel : TableModifyDel
  colID : Int
  val : Int
deriving DecidableEq, Repr

/-- The eight bytes written by `binary.LittleEndian.PutUint64`. -/
def PutUint64LE (u : Nat) : List Nat :=
  [u % 256, u / 2 ^ 8 % 256, u / 2 ^ 16 % 256, u / 2 ^ 24 % 256,
   u / 2 ^ 32 % 256, u / 2 ^ 40 % 256, u / 2 ^ 48 % 256, u / 2 ^ 56 % 256]

/-- The Go method `(*TableModifyDel).Encode`. -/
def TableModifyDel.Encode (_m : TableModifyDel) : List Nat :=
  let v : List Nat := []
  v ++ [EngineDel % 256]

/-- The Go method `(*TableModifyAdd).Encode`. -/
def TableModifyAdd.Encode (m : TableModifyAdd) : List Nat :=
  let v : List Nat := []
  let v := v ++ [EngineAdd % 256]
  let data := PutUint64LE (toUint64 m.colID)
  let v := v ++ data
  let data := PutUint64LE (toUint64 m.val)
  let v := v ++ data
  v

/-- The Go function `MakeTableModifyDel`. -/
def MakeTableModifyDel (key : Option TableKey) : TableModifyDel :=
  { key := key }

/-- The Go function `MakeTableModifyAdd`. -/
def MakeTableModifyAdd (key : Option TableKey) (colID val : Int) : TableModifyAdd :=
  { toTableModifyDel := { key := key }, colID := colID, val := val }

/-- The number written by a little-endian byte string. -/
def Uint64LE (l : List Nat) : Nat := l.foldr (fun b acc => b + 256 * acc) 0

/-- The Go conversion `int64(u)` of a `uint64`. -/
def toInt64 (u : Nat) : Int := if u < 2 ^ 63 then (u : Int) else (u : Int) - 2 ^ 64

/-- Modelled from the spec: the tagged value `ModificationLogEntry` that the absent decoder
returns, either `Delete` or `AddDelta(columnID, amount)`. -/
inductive ModificationLogEntry where
  | Delete
  | AddDelta (columnID : Int) (amount : Int)
deriving DecidableEq, Repr

/-- Modelled from the spec: the error `MalformedEntry` of the absent decoder. -/
inductive DecodeError where
  | MalformedEntry
deriving DecidableEq, Repr

/-- Modelled from the spec: the absent decoder `Decode` of modification log entries. A
1-byte input with the tag of `Delete` is `Delete`; a 17-byte input with the tag of
`AddDelta` is `AddDelta` of the two little-endian 64-bit fields that follow the tag; any
other total length or tag byte fails with `MalformedEntry`. -/
def Decode (bytes : List Nat) : Except DecodeError ModificationLogEntry :=
  match bytes with
  | [] => .error .MalformedEntry
  | tag :: payload =>
    if tag = EngineDel ∧ bytes.length = 1 then .ok .Delete
    else if tag = EngineAdd ∧ bytes.length = 17 then
      .ok (.AddDelta (toInt64 (Uint64LE (payload.take 8)))
        (toInt64 (Uint64LE ((payload.drop 8).take 8))))
    else .error .MalformedEntry

/-- The spec's `EncodeDelete`: the `Encode` method on the value built by
`MakeTableModifyDel(nil)`. -/
def EncodeDelete : List Nat := (MakeTableModifyDel none).Encode

/-- The spec's `EncodeAddDelta`: the `Encode` method on the value built by
`MakeTableModifyAdd(nil, columnID, amount)`. -/
def EncodeAddDelta (columnID amount : Int) : List Nat :=
  (MakeTableModifyAdd none columnID amount).Encode

/-- The spec's wire form of a 64-bit field: the eight bytes of the two's complement
representation of `v`, least significant byte first. -/
def littleEndianTwosComplement (v : Int) : List Nat :=
  (List.range 8).map fun i => (((if 0 ≤ v then v else v + 2 ^ 64) / 256 ^ i) % 256).toNat

/-! ## Auxiliary definitions of the proofs -/

/-- The encoding of the rest `l` of a byte string of which `k` bytes (`k < 8`) are already
written in the current group: a recursive description of what `codec.EncodeBytes` appends,
used in the proofs. -/
def groupEnc : Nat → List Nat → List Nat
  | k, [] => List.replicate (8 - k) 0 ++ [247 + k]
  | k, x :: xs => if k + 1 = 8 then x :: 255 :: groupEnc 0 xs else x :: groupEnc (k + 1) xs

/-- The `n` low bytes of `u`, most significant first. -/
def beBytes : Nat → Nat → List Nat
  | 0, _ => []
  | n + 1, u => (u / 256 ^ n % 256) :: beBytes n u

/-! # Theorems -/

/-! ## The memcomparable encoding, group by group -/

theorem groupEnc_short (l : List Nat) : ∀ k, k + l.length < 8 →
    groupEnc k l = l ++ List.replicate (8 - k - l.length) 0 ++ [247 + k + l.length] := by
  induction l with
  | nil => intro k _; simp [groupEnc]
  | cons x xs ih =>
    intro k hk
    simp only [List.length_cons] at hk
    have h1 : ¬ (k + 1 = 8) := by omega
    simp only [groupEnc, h1, if_false, List.cons_append, List.length_cons]
    rw [ih (k + 1) (by omega)]
    have e1 : 8 - (k + 1) - xs.length = 8 - k - (xs.length + 1) := by omega
    have e2 : 247 + (k + 1) + xs.length = 247 + k + (xs.length + 1) := by omega
    rw [e1, e2]

theorem groupEnc_full (l : List Nat) : ∀ k, k < 8 → 8 ≤ k + l.length →
    groupEnc k l = l.take (8 - k) ++ 255 :: groupEnc 0 (l.drop (8 - k)) := by
  induction l with
  | nil => intro k h1 h2; simp at h2; omega
  | cons x xs ih =>
    intro k h1 h2
    simp only [List.length_cons] at h2
    by_cases h : k + 1 = 8
    · have e : 8 - k = 1 := by omega
      simp [groupEnc, h, e]
    · have e : 8 - k = (8 - (k + 1)) + 1 := by omega
      simp only [groupEnc, h, if_false]
      rw [ih (k + 1) (by omega) (by omega), e]
      simp

theorem EncodeBytes_loop_eq (b : List Nat) : ∀ fuel idx result, idx ≤ b.length →
    (b.length - idx) / 8 + 1 ≤ fuel →
    codec.EncodeBytes.loop b fuel idx result = result ++ groupEnc 0 (b.drop idx) := by
  intro fuel
  induction fuel with
  | zero => intro idx result _ h; omega
  | succ fuel ih =>
    intro idx result hidx hfuel
    by_cases hr : b.length - idx ≥ 8
    · have hlen : 8 ≤ 0 + (b.drop idx).length := by simp; omega
      rw [groupEnc_full (b.drop idx) 0 (by omega) hlen]
      simp only [codec.EncodeBytes.loop, hidx, if_true, codec.encGroupSize, hr]
      rw [ih (idx + 8) _ (by omega) (by omega)]
      simp [subByte, codec.encMarker, List.drop_drop, Nat.add_comm]
    · have hlen : 0 + (b.drop idx).length < 8 := by simp; omega
      rw [groupEnc_short (b.drop idx) 0 hlen]
      simp only [codec.EncodeBytes.loop, hidx, if_true, codec.encGroupSize, hr, if_false]
      have hstop : ∀ r, codec.EncodeBytes.loop b fuel (idx + 8) r = r := by
        intro r
        cases fuel with
        | zero => rfl
        | succ f =>
          have : ¬ (idx + 8 ≤ b.length) := by omega
          simp [codec.EncodeBytes.loop, this]
      rw [hstop]
      have hp : List.take (8 - (b.length - idx)) codec.pads
          = List.replicate (8 - (b.length - idx)) 0 := by
        show List.take _ (List.replicate 8 0) = _
        rw [List.take_replicate]
        congr 1
        omega
      have hm : subByte codec.encMarker (8 - (b.length - idx)) = 247 + (b.length - idx) := by
        simp only [subByte, codec.encMarker]; omega
      rw [hp, hm]
      simp

/-- The loop of `codec.EncodeBytes` produces the group-by-group encoding. -/
theorem EncodeBytes_eq_groupEnc (b : List Nat) : codec.EncodeBytes b = groupEnc 0 b := by
  unfold codec.EncodeBytes
  rw [EncodeBytes_loop_eq b _ 0 [] (Nat.zero_le _) (by simp [codec.encGroupSize])]
  simp

/-- The padding of a group that ends after `k` bytes, followed by a byte `m` that is at most
the end marker, is below every continuation of the group. -/
theorem pad_lt_groupEnc (l : List Nat) : ∀ k m, k < 8 → m ≤ 247 + k →
    (l = [] → m < 247 + k) → List.replicate (8 - k) 0 ++ [m] < groupEnc k l := by
  induction l with
  | nil =>
    intro k m _ _ hm
    simp only [groupEnc]
    exact List.Lex.append_left _ (List.Lex.rel (hm rfl)) _
  | cons x xs ih =>
    intro k m hk hm _
    have e : 8 - k = (8 - (k + 1)) + 1 := by omega
    rw [e, List.replicate_succ, List.cons_append]
    rcases Nat.eq_zero_or_pos x with hx | hx
    · subst hx
      by_cases h : k + 1 = 8
      · have e2 : 8 - (k + 1) = 0 := by omega
        simp only [groupEnc, h, if_true, e2, List.replicate_zero, List.nil_append]
        exact List.Lex.cons (List.Lex.rel (by omega))
      · simp only [groupEnc, h, if_false]
        exact List.Lex.cons (ih (k + 1) m (by omega) (by omega) (fun _ => by omega))
    · have hh : groupEnc k (x :: xs) = x :: (groupEnc k (x :: xs)).tail := by
        by_cases h : k + 1 = 8 <;> simp [groupEnc, h]
      rw [hh]
      exact List.Lex.rel hx

/-- The group-by-group encoding is strictly increasing for the lexicographic order. -/
theorem groupEnc_lt (a : List Nat) : ∀ b k, k < 8 → a < b → groupEnc k a < groupEnc k b := by
  induction a with
  | nil =>
    intro b k hk hab
    cases b with
    | nil => exact absurd hab (List.Lex.not_nil_right _ _)
    | cons y ys =>
      simp only [groupEnc]
      exact pad_lt_groupEnc (y :: ys) k (247 + k) hk (le_refl _) (fun h => by simp at h)
  | cons x xs ih =>
    intro b k hk hab
    cases hab with
    | cons h =>
      by_cases hk8 : k + 1 = 8
      · simp only [groupEnc, hk8, if_true]
        exact List.Lex.cons (List.Lex.cons (ih _ 0 (by omega) h))
      · simp only [groupEnc, hk8, if_false]
        exact List.Lex.cons (ih _ (k + 1) (by omega) h)
    | @rel _ _ y ys h =>
      have h1 : groupEnc k (x :: xs) = x :: (groupEnc k (x :: xs)).tail := by
        by_cases h : k + 1 = 8 <;> simp [groupEnc, h]
      have h2 : groupEnc k (y :: ys) = y :: (groupEnc k (y :: ys)).tail := by
        by_cases h : k + 1 = 8 <;> simp [groupEnc, h]
      rw [h1, h2]
      exact List.Lex.rel h

/-- The memcomparable encoding `codec.EncodeBytes` is strictly increasing. -/
theorem EncodeBytes_lt {a b : List Nat} (h : a < b) :
    codec.EncodeBytes a < codec.EncodeBytes b := by
  rw [EncodeBytes_eq_groupEnc, EncodeBytes_eq_groupEnc]
  exact groupEnc_lt a b 0 (by omega) h

/-- Appending to a common prefix keeps the lexicographic order. -/
theorem append_lt_append_left (p : List Nat) {a b : List Nat} (h : a < b) : p ++ a < p ++ b :=
  List.Lex.append_left _ h p

/-! ## Claims on the table key codec -/

/-- C1 (order preservation): for every table identifier and every two byte strings
`k1 < k2` in lexicographic order, the empty one included, the encoded key of
`NewTableKey tableID k1` is lexicographically below the encoded key of
`NewTableKey tableID k2`. -/
theorem NewTableKey_order_preserving (tableID : Int) (k1 k2 : List Nat) (h : k1 < k2) :
    (NewTableKey tableID k1).EncodeBytes < (NewTableKey tableID k2).EncodeBytes := by
  show codec.EncodeBytes (codec.GenTableRecordPrefix tableID ++ k1)
    < codec.EncodeBytes (codec.GenTableRecordPrefix tableID ++ k2)
  exact EncodeBytes_lt (append_lt_append_left _ h)

/-- C1 at table 12345 with the empty key and the big-endian handle five. -/
theorem NewTableKey_order_preserving_witness :
    ([] : List Nat) < [0, 0, 0, 0, 0, 0, 0, 5] ∧
    (NewTableKey 12345 []).EncodeBytes
      < (NewTableKey 12345 [0, 0, 0, 0, 0, 0, 0, 5]).EncodeBytes :=
  ⟨by decide, NewTableKey_order_preserving 12345 [] [0, 0, 0, 0, 0, 0, 0, 5] (by decide)⟩

/-! ## The integer encoding -/

theorem beBytes_length (n u : Nat) : (beBytes n u).length = n := by
  induction n with
  | zero => rfl
  | succ n ih => simp [beBytes, ih]

theorem PutUint64BE_eq_beBytes (u : Nat) : codec.PutUint64BE u = beBytes 8 u := by
  simp [codec.PutUint64BE, beBytes]

/-- Big-endian bytes compare like the numbers they write. -/
theorem beBytes_lt (n : Nat) : ∀ u1 u2, u1 % 256 ^ n < u2 % 256 ^ n →
    beBytes n u1 < beBytes n u2 := by
  induction n with
  | zero => intro u1 u2 h; simp [Nat.mod_one] at h
  | succ n ih =>
    intro u1 u2 h
    rw [Nat.mod_pow_succ, Nat.mod_pow_succ] at h
    have hp : 0 < 256 ^ n := Nat.pow_pos (by norm_num)
    have hr1 : u1 % 256 ^ n < 256 ^ n := Nat.mod_lt _ hp
    have hr2 : u2 % 256 ^ n < 256 ^ n := Nat.mod_lt _ hp
    simp only [beBytes]
    rcases Nat.lt_trichotomy (u1 / 256 ^ n % 256) (u2 / 256 ^ n % 256) with hlt | heq | hgt
    · exact List.Lex.rel hlt
    · rw [heq] at h ⊢
      exact List.Lex.cons (ih u1 u2 (by omega))
    · exfalso
      have : 256 ^ n * (u2 / 256 ^ n % 256 + 1) ≤ 256 ^ n * (u1 / 256 ^ n % 256) :=
        Nat.mul_le_mul_left _ hgt
      rw [Nat.mul_add, Nat.mul_one] at this
      omega

theorem PutUint64BE_lt {u1 u2 : Nat} (h : u1 < u2) (h2 : u2 < 2 ^ 64) :
    codec.PutUint64BE u1 < codec.PutUint64BE u2 := by
  rw [PutUint64BE_eq_beBytes, PutUint64BE_eq_beBytes]
  apply beBytes_lt
  have e : (256 : Nat) ^ 8 = 2 ^ 64 := by norm_num
  rw [e, Nat.mod_eq_of_lt (by omega), Nat.mod_eq_of_lt h2]
  exact h

theorem PutUint64BE_length (u : Nat) : (codec.PutUint64BE u).length = 8 := rfl

/-- Flipping bit 63 of a number below `2 ^ 63` adds `2 ^ 63`. -/
theorem xor_signMask_low {r : Nat} (h : r < 2 ^ 63) : r ^^^ 2 ^ 63 = 2 ^ 63 + r := by
  apply Nat.eq_of_testBit_eq
  intro i
  rw [Nat.testBit_xor, Nat.testBit_two_pow]
  rcases Nat.lt_trichotomy i 63 with hi | hi | hi
  · rw [Nat.testBit_two_pow_add_gt hi]
    have : ¬ (63 = i) := by omega
    simp [this]
  · subst hi
    rw [Nat.testBit_two_pow_add_eq, Nat.testBit_lt_two_pow h]
    simp
  · have h1 : r < 2 ^ i := lt_of_lt_of_le h (Nat.pow_le_pow_right (by norm_num) (by omega))
    have h2 : 2 ^ 63 + r < 2 ^ i := by
      have : 2 ^ 64 ≤ 2 ^ i := Nat.pow_le_pow_right (by norm_num) (by omega)
      omega
    rw [Nat.testBit_lt_two_pow h1, Nat.testBit_lt_two_pow h2]
    have : ¬ (63 = i) := by omega
    simp [this]

/-- Flipping bit 63 of a number with that bit set removes `2 ^ 63`. -/
theorem xor_signMask_high {r : Nat} (h : r < 2 ^ 63) : (2 ^ 63 + r) ^^^ 2 ^ 63 = r := by
  rw [← xor_signMask_low h, Nat.xor_assoc, Nat.xor_self, Nat.xor_zero]

/-- On `int64` values the comparable unsigned form is the value shifted by `2 ^ 63`. -/
theorem EncodeIntToCmpUint_eq {v : Int} (hv : IsInt64 v) :
    codec.EncodeIntToCmpUint v = (v + 2 ^ 63).toNat := by
  obtain ⟨h1, h2⟩ := hv
  show (toUint64 v) ^^^ codec.signMask = _
  have hs : codec.signMask = 2 ^ 63 := by norm_num [codec.signMask]
  rw [hs]
  unfold toUint64
  by_cases hneg : v < 0
  · have e : (v % 2 ^ 64).toNat = 2 ^ 63 + (v + 2 ^ 63).toNat := by omega
    rw [e, xor_signMask_high (by omega)]
  · have e : (v % 2 ^ 64).toNat = v.toNat := by omega
    rw [e, xor_signMask_low (by omega)]
    omega

theorem EncodeIntToCmpUint_lt {v : Int} (hv : IsInt64 v) :
    codec.EncodeIntToCmpUint v < 2 ^ 64 := by
  rw [EncodeIntToCmpUint_eq hv]
  obtain ⟨h1, h2⟩ := hv
  omega

/-- The integer encoding is strictly increasing on `int64`. -/
theorem EncodeInt_lt {v1 v2 : Int} (h1 : IsInt64 v1) (h2 : IsInt64 v2) (h : v1 < v2) :
    codec.PutUint64BE (codec.EncodeIntToCmpUint v1)
      < codec.PutUint64BE (codec.EncodeIntToCmpUint v2) := by
  apply PutUint64BE_lt _ (EncodeIntToCmpUint_lt h2)
  rw [EncodeIntToCmpUint_eq h1, EncodeIntToCmpUint_eq h2]
  obtain ⟨a1, a2⟩ := h1
  obtain ⟨b1, b2⟩ := h2
  omega

/-- Two strings of the same length in strict order stay so under any extensions. -/
theorem append_lt_append_of_length {a b : List Nat} (h : a < b) :
    a.length = b.length → ∀ x y : List Nat, a ++ x < b ++ y := by
  induction h with
  | nil => intro hl; simp at hl
  | cons _ ih =>
    intro hl x y
    exact List.Lex.cons (ih (by simpa using hl) x y)
  | rel hr => intro _ x y; exact List.Lex.rel hr

/-- A string is below each of its proper extensions. -/
theorem lt_append_of_ne_nil (a : List Nat) {x : List Nat} (hx : x ≠ []) : a < a ++ x := by
  induction a with
  | nil =>
    cases x with
    | nil => exact absurd rfl hx
    | cons y ys => exact List.Lex.nil
  | cons z zs ih => exact List.Lex.cons ih

/-- The raw key of a table is below the raw key of every larger table, whatever follows
the two table identifiers. -/
theorem tablePrefix_lt {t1 t2 : Int} (h1 : IsInt64 t1) (h2 : IsInt64 t2) (h : t1 < t2)
    (x y : List Nat) :
    codec.EncodeInt codec.tablePrefix t1 ++ x < codec.EncodeInt codec.tablePrefix t2 ++ y := by
  apply append_lt_append_of_length
  · exact append_lt_append_left _ (EncodeInt_lt h1 h2 h)
  · simp [codec.EncodeInt, PutUint64BE_length]

/-! ## The next table prefix -/

theorem byteIncrement_cons (b : Nat) (bs : List Nat) :
    codec.byteIncrement (b :: bs)
      = match codec.byteIncrement bs with
        | (r, true) => ((b + 1) % 256 :: r, (b + 1) % 256 == 0)
        | (r, false) => (b :: r, false) := by
  rw [codec.byteIncrement]

/-- Incrementing the `n` low bytes of `u` gives the `n` low bytes of `u + 1`, and every
byte wraps around exactly when `u + 1` is a multiple of `256 ^ n`. -/
theorem byteIncrement_beBytes (n : Nat) : ∀ u,
    codec.byteIncrement (beBytes n u)
      = (beBytes n (u + 1), decide ((u + 1) % 256 ^ n = 0)) := by
  induction n with
  | zero => intro u; simp [beBytes, codec.byteIncrement, Nat.mod_one]
  | succ n ih =>
    intro u
    have hp : 0 < 256 ^ n := Nat.pow_pos (by norm_num)
    have hsplit : (u + 1) % 256 ^ (n + 1)
        = (u + 1) % 256 ^ n + 256 ^ n * ((u + 1) / 256 ^ n % 256) := Nat.mod_pow_succ
    simp only [beBytes]
    rw [byteIncrement_cons, ih u]
    by_cases h : (u + 1) % 256 ^ n = 0
    · have hd : 256 ^ n ∣ u + 1 := Nat.dvd_of_mod_eq_zero h
      have hq : (u + 1) / 256 ^ n = u / 256 ^ n + 1 := by
        rw [Nat.succ_div]; simp [hd]
      have hhead : (u / 256 ^ n % 256 + 1) % 256 = (u + 1) / 256 ^ n % 256 := by
        rw [hq]; omega
      have hcarry : ((u + 1) % 256 ^ (n + 1) = 0) ↔ ((u + 1) / 256 ^ n % 256 = 0) := by
        rw [hsplit, h, Nat.zero_add]
        constructor
        · intro h0
          rcases Nat.mul_eq_zero.mp h0 with h1 | h1
          · omega
          · exact h1
        · intro h0; rw [h0, Nat.mul_zero]
      simp only [h, decide_True, hhead]
      congr 1
      by_cases hz : (u + 1) / 256 ^ n % 256 = 0
      · simp [hz, hcarry.mpr hz]
      · have : ¬ ((u + 1) % 256 ^ (n + 1) = 0) := fun h0 => hz (hcarry.mp h0)
        simp [hz, this]
    · have hd : ¬ (256 ^ n ∣ u + 1) := fun hd => h (Nat.mod_eq_zero_of_dvd hd)
      have hq : (u + 1) / 256 ^ n = u / 256 ^ n := by
        rw [Nat.succ_div]; simp [hd]
      have hne : ¬ ((u + 1) % 256 ^ (n + 1) = 0) := by
        rw [hsplit]
        intro h0
        exact h (Nat.eq_zero_of_add_eq_zero_right h0)
      simp [h, hq, hne]

/-- Below the largest `int64` the next table prefix is the prefix of the next table
identifier. -/
theorem GenNextTablePrefix_eq {t : Int} (h1 : IsInt64 t) (h : t < maxInt64) :
    codec.GenNextTablePrefix t = codec.EncodeInt codec.tablePrefix (t + 1) := by
  have hs : IsInt64 (t + 1) := by
    obtain ⟨a, b⟩ := h1
    unfold maxInt64 at h
    exact ⟨by omega, by omega⟩
  have hu : codec.EncodeIntToCmpUint (t + 1) = codec.EncodeIntToCmpUint t + 1 := by
    rw [EncodeIntToCmpUint_eq h1, EncodeIntToCmpUint_eq hs]
    obtain ⟨a, b⟩ := h1
    omega
  have hlt : codec.EncodeIntToCmpUint t + 1 < 2 ^ 64 := by
    rw [← hu]; exact EncodeIntToCmpUint_lt hs
  have hmod : ¬ ((codec.EncodeIntToCmpUint t + 1) % 256 ^ 8 = 0) := by
    have e : (256 : Nat) ^ 8 = 2 ^ 64 := by norm_num
    rw [e, Nat.mod_eq_of_lt hlt]
    omega
  show (codec.byteIncrement ([0x74] ++ codec.PutUint64BE (codec.EncodeIntToCmpUint t))).1
    = [0x74] ++ codec.PutUint64BE (codec.EncodeIntToCmpUint (t + 1))
  rw [hu, PutUint64BE_eq_beBytes, PutUint64BE_eq_beBytes, List.singleton_append,
    List.singleton_append, byteIncrement_cons, byteIncrement_beBytes]
  simp only [hmod, decide_False]

/-- When the increment does not wrap around, its result is above every string that starts
with the incremented bytes. -/
theorem lt_byteIncrement (p : List Nat) : (codec.byteIncrement p).2 = false →
    (∀ b ∈ p, b < 256) → ∀ x : List Nat, p ++ x < (codec.byteIncrement p).1 := by
  induction p with
  | nil => intro h; simp [codec.byteIncrement] at h
  | cons b bs ih =>
    intro h hb x
    have hb0 : b < 256 := hb b (by simp)
    have hbs : ∀ c ∈ bs, c < 256 := fun c hc => hb c (by simp [hc])
    rw [byteIncrement_cons] at h ⊢
    rcases hr : codec.byteIncrement bs with ⟨r, carry⟩
    rw [hr] at h ih
    cases carry with
    | true =>
      simp only [beq_eq_false_iff_ne, ne_eq] at h
      have : (b + 1) % 256 = b + 1 := by omega
      simp only [this, List.cons_append]
      exact List.Lex.rel (Nat.lt_succ_self b)
    | false =>
      simp only [List.cons_append]
      exact List.Lex.cons (ih rfl hbs x)

/-- The increment of a table prefix never wraps around: its first byte is `0x74`. -/
theorem byteIncrement_tablePrefix (t : Int) :
    (codec.byteIncrement (codec.EncodeInt codec.tablePrefix t)).2 = false := by
  show (codec.byteIncrement
    ([0x74] ++ codec.PutUint64BE (codec.EncodeIntToCmpUint t))).2 = false
  generalize codec.PutUint64BE (codec.EncodeIntToCmpUint t) = l
  rw [List.singleton_append, byteIncrement_cons]
  rcases codec.byteIncrement l with ⟨r, carry⟩
  cases carry <;> rfl

theorem EncodeInt_tablePrefix_lt (t : Int) :
    ∀ b ∈ codec.EncodeInt codec.tablePrefix t, b < 256 := by
  intro b hb
  simp only [codec.EncodeInt, codec.tablePrefix, codec.PutUint64BE, List.singleton_append,
    List.mem_cons, List.mem_singleton, List.not_mem_nil, or_false] at hb
  omega

/-- C2 (range coverage): for every table identifier, the largest `int64` included, and
every byte string `k`, the start key returned by `MakeTableRecordStartEndKey` is the encoded
key of the empty key, and the encoded key of `k` is at least the start key, below the end
key and different from the end key. -/
theorem range_coverage (tableID : Int) (k : List Nat) :
    (MakeTableRecordStartEndKey tableID).1 = (NewTableKey tableID []).EncodeBytes ∧
    (MakeTableRecordStartEndKey tableID).1 ≤ (NewTableKey tableID k).EncodeBytes ∧
    (NewTableKey tableID k).EncodeBytes < (MakeTableRecordStartEndKey tableID).2 ∧
    (NewTableKey tableID k).EncodeBytes ≠ (MakeTableRecordStartEndKey tableID).2 := by
  have hend : (NewTableKey tableID k).EncodeBytes < (MakeTableRecordStartEndKey tableID).2 := by
    simp only [TableKey.EncodeBytes, NewTableKey, MakeTableRecordStartEndKey]
    apply EncodeBytes_lt
    have key := lt_byteIncrement (codec.EncodeInt codec.tablePrefix tableID)
      (byteIncrement_tablePrefix tableID) (EncodeInt_tablePrefix_lt tableID)
      (codec.recordPrefixSep ++ k)
    simp only [codec.GenTableRecordPrefix, codec.GenNextTablePrefix, List.append_assoc]
    exact key
  refine ⟨rfl, ?_, hend, ne_of_lt hend⟩
  simp only [TableKey.EncodeBytes, NewTableKey, MakeTableRecordStartEndKey]
  cases k with
  | nil => exact le_refl _
  | cons x xs =>
    exact le_of_lt (EncodeBytes_lt (append_lt_append_left _ List.Lex.nil))

example : (MakeTableRecordStartEndKey maxInt64).2
    = [0x75, 0, 0, 0, 0, 0, 0, 0, 0xFF, 0, 0, 0, 0, 0, 0, 0, 0, 0xF8] := by decide

example : (NewTableKey maxInt64 [255, 255, 255]).EncodeBytes
    < (MakeTableRecordStartEndKey maxInt64).2 := by decide

example : (MakeTableRecordStartEndKey 12345).2
    = codec.EncodeBytes (codec.EncodeInt codec.tablePrefix 12346) := by decide

/-- C3 (table isolation): for table identifiers `t1 < t2` in the `int64` range and all
byte strings `k1`, `k2`, the encoded key of `(t1, k1)` is below the encoded key of
`(t2, k2)`; the two never coincide, and the end key of the range of `t1` is not above the
start key of the range of `t2`. -/
theorem table_isolation (t1 t2 : Int) (h1 : IsInt64 t1) (h2 : IsInt64 t2) (h : t1 < t2) :
    (∀ k1 k2 : List Nat,
      (NewTableKey t1 k1).EncodeBytes < (NewTableKey t2 k2).EncodeBytes) ∧
    (∀ k1 k2 : List Nat,
      (NewTableKey t1 k1).EncodeBytes ≠ (NewTableKey t2 k2).EncodeBytes) ∧
    (MakeTableRecordStartEndKey t1).2 ≤ (MakeTableRecordStartEndKey t2).1 := by
  have hlt : ∀ k1 k2 : List Nat,
      (NewTableKey t1 k1).EncodeBytes < (NewTableKey t2 k2).EncodeBytes := by
    intro k1 k2
    show codec.EncodeBytes (codec.GenTableRecordPrefix t1 ++ k1)
      < codec.EncodeBytes (codec.GenTableRecordPrefix t2 ++ k2)
    apply EncodeBytes_lt
    have key := tablePrefix_lt h1 h2 h (codec.recordPrefixSep ++ k1)
      (codec.recordPrefixSep ++ k2)
    simpa [codec.GenTableRecordPrefix] using key
  refine ⟨hlt, fun k1 k2 => ne_of_lt (hlt k1 k2), ?_⟩
  simp only [MakeTableRecordStartEndKey, NewTableKey]
  apply le_of_lt
  apply EncodeBytes_lt
  have hmax : t1 < maxInt64 := by
    obtain ⟨_, b⟩ := h2
    unfold maxInt64
    omega
  have hs : IsInt64 (t1 + 1) := by
    obtain ⟨a, _⟩ := h1
    unfold maxInt64 at hmax
    exact ⟨by omega, by omega⟩
  rw [GenNextTablePrefix_eq h1 hmax]
  unfold codec.GenTableRecordPrefix
  rw [List.append_nil]
  rcases lt_or_eq_of_le (Int.add_one_le_of_lt h) with hlt2 | heq
  · have key := tablePrefix_lt hs h2 hlt2 [] codec.recordPrefixSep
    simpa using key
  · rw [heq]
    exact lt_append_of_ne_nil _ (by simp [codec.recordPrefixSep])

/-- C3 at the tables `-1` and `0`, whose keys `[255]` and `[]` are in the opposite order. -/
theorem table_isolation_witness :
    (∀ k1 k2 : List Nat,
      (NewTableKey (-1) k1).EncodeBytes < (NewTableKey 0 k2).EncodeBytes) ∧
    (∀ k1 k2 : List Nat,
      (NewTableKey (-1) k1).EncodeBytes ≠ (NewTableKey 0 k2).EncodeBytes) ∧
    (MakeTableRecordStartEndKey (-1)).2 ≤ (MakeTableRecordStartEndKey 0).1 :=
  table_isolation (-1) 0 (by decide) (by decide) (by decide)

/-- C4 (handle monotonicity): for every table identifier and every two `int64` handles
`h1 < h2`, the encoded key of `NewTableKeyByHandle tableID h1` is lexicographically below
the encoded key of `NewTableKeyByHandle tableID h2`. -/
theorem handle_monotone (tableID h1 h2 : Int) (r1 : IsInt64 h1) (r2 : IsInt64 h2)
    (h : h1 < h2) :
    (NewTableKeyByHandle tableID h1).toTableKey.EncodeBytes
      < (NewTableKeyByHandle tableID h2).toTableKey.EncodeBytes := by
  show codec.EncodeBytes (codec.GenTableRecordPrefix tableID ++ codec.EncodeInt [] h1)
    < codec.EncodeBytes (codec.GenTableRecordPrefix tableID ++ codec.EncodeInt [] h2)
  apply EncodeBytes_lt
  apply append_lt_append_left
  simpa [codec.EncodeInt] using EncodeInt_lt r1 r2 h

/-- C4 from the smallest to the largest `int64` handle of table 12345. -/
theorem handle_monotone_witness :
    IsInt64 minInt64 ∧ IsInt64 maxInt64 ∧ minInt64 < maxInt64 ∧
    (NewTableKeyByHandle 12345 minInt64).toTableKey.EncodeBytes
      < (NewTableKeyByHandle 12345 maxInt64).toTableKey.EncodeBytes :=
  ⟨by decide, by decide, by decide,
    handle_monotone 12345 minInt64 maxInt64 (by decide) (by decide) (by decide)⟩

example : (NewTableKeyByHandle 12345 (-1)).toTableKey.EncodeBytes
    < (NewTableKeyByHandle 12345 0).toTableKey.EncodeBytes := by decide

/-! ## Claims on the modification log codec -/

theorem Uint64LE_PutUint64LE {u : Nat} (h : u < 2 ^ 64) : Uint64LE (PutUint64LE u) = u := by
  simp only [Uint64LE, PutUint64LE, List.foldr]
  omega

theorem toInt64_toUint64 {v : Int} (h : IsInt64 v) : toInt64 (toUint64 v) = v := by
  obtain ⟨a, b⟩ := h
  unfold toInt64 toUint64
  split <;> omega

theorem toUint64_lt (v : Int) : toUint64 v < 2 ^ 64 := by
  unfold toUint64
  omega

theorem PutUint64LE_lt (u x : Nat) (h : x ∈ PutUint64LE u) : x < 256 := by
  simp only [PutUint64LE, List.mem_cons, List.mem_singleton, List.not_mem_nil, or_false] at h
  omega

theorem PutUint64LE_eq_twosComplement {v : Int} (h : IsInt64 v) :
    PutUint64LE (toUint64 v) = littleEndianTwosComplement v := by
  obtain ⟨a, b⟩ := h
  have e : ((if 0 ≤ v then v else v + 2 ^ 64) : Int) = ((toUint64 v : Nat) : Int) := by
    unfold toUint64
    split <;> omega
  unfold littleEndianTwosComplement
  rw [e]
  generalize toUint64 v = u
  simp only [PutUint64LE, List.range, List.range.loop, List.map]
  have h0 : (((u : Int) / 256 ^ 0) % 256).toNat = u % 256 := by omega
  have h1 : (((u : Int) / 256 ^ 1) % 256).toNat = u / 2 ^ 8 % 256 := by omega
  have h2 : (((u : Int) / 256 ^ 2) % 256).toNat = u / 2 ^ 16 % 256 := by omega
  have h3 : (((u : Int) / 256 ^ 3) % 256).toNat = u / 2 ^ 24 % 256 := by omega
  have h4 : (((u : Int) / 256 ^ 4) % 256).toNat = u / 2 ^ 32 % 256 := by omega
  have h5 : (((u : Int) / 256 ^ 5) % 256).toNat = u / 2 ^ 40 % 256 := by omega
  have h6 : (((u : Int) / 256 ^ 6) % 256).toNat = u / 2 ^ 48 % 256 := by omega
  have h7 : (((u : Int) / 256 ^ 7) % 256).toNat = u / 2 ^ 56 % 256 := by omega
  rw [h0, h1, h2, h3, h4, h5, h6, h7]

/-- C5 (wire format): `TableModifyDel.Encode` returns exactly the one byte `1`, and for
every `int64` column identifier and value `TableModifyAdd.Encode` returns exactly 17 bytes:
the tag `2`, the eight bytes of `colID` and then the eight bytes of `val`, each in
little-endian two's complement. -/
theorem modify_wire_format (d : TableModifyDel) (m : TableModifyAdd)
    (hc : IsInt64 m.colID) (hv : IsInt64 m.val) :
    d.Encode = [1] ∧
    m.Encode.length = 17 ∧
    m.Encode = 2 :: (littleEndianTwosComplement m.colID ++ littleEndianTwosComplement m.val) ∧
    (∀ x ∈ m.Encode, x < 256) := by
  have e : m.Encode = 2 :: (PutUint64LE (toUint64 m.colID) ++ PutUint64LE (toUint64 m.val)) := by
    simp [TableModifyAdd.Encode, EngineAdd]
  refine ⟨rfl, ?_, ?_, ?_⟩
  · rw [e]; simp [PutUint64LE]
  · rw [e, PutUint64LE_eq_twosComplement hc, PutUint64LE_eq_twosComplement hv]
  · intro x hx
    rw [e] at hx
    simp only [List.mem_cons, List.mem_append] at hx
    rcases hx with rfl | hx | hx
    · norm_num
    · exact PutUint64LE_lt _ _ hx
    · exact PutUint64LE_lt _ _ hx

/-- C5 at column 199 and value 1: the 17 bytes are written out. -/
theorem modify_wire_format_witness :
    IsInt64 199 ∧ IsInt64 1 ∧
    (MakeTableModifyAdd none 199 1).Encode.length = 17 ∧
    (MakeTableModifyAdd none 199 1).Encode
      = [2, 199, 0, 0, 0, 0, 0, 0, 0, 1, 0, 0, 0, 0, 0, 0, 0] :=
  ⟨by decide, by decide,
    (modify_wire_format (MakeTableModifyDel none) (MakeTableModifyAdd none 199 1)
      (by decide) (by decide)).2.1,
    by decide⟩

/-- C6 (round trip): decoding the encoding of `Delete` gives `Delete`, and for every `int64`
column identifier `c` and amount `a`, decoding the encoding of `AddDelta(c, a)` gives
`AddDelta(c, a)`. -/
theorem modify_round_trip (c a : Int) (hc : IsInt64 c) (ha : IsInt64 a) :
    Decode EncodeDelete = .ok .Delete ∧
    Decode (EncodeAddDelta c a) = .ok (.AddDelta c a) := by
  refine ⟨rfl, ?_⟩
  have e : EncodeAddDelta c a
      = 2 :: (PutUint64LE (toUint64 c) ++ PutUint64LE (toUint64 a)) := by
    simp [EncodeAddDelta, MakeTableModifyAdd, TableModifyAdd.Encode, EngineAdd]
  have l1 : (PutUint64LE (toUint64 c)).length = 8 := rfl
  have l2 : (PutUint64LE (toUint64 a)).length = 8 := rfl
  have t1 : (PutUint64LE (toUint64 c) ++ PutUint64LE (toUint64 a)).take 8
      = PutUint64LE (toUint64 c) := by
    rw [List.take_append_of_le_length (by omega), List.take_of_length_le (by omega)]
  have t2 : ((PutUint64LE (toUint64 c) ++ PutUint64LE (toUint64 a)).drop 8).take 8
      = PutUint64LE (toUint64 a) := by
    rw [List.drop_append_of_le_length (by omega), List.drop_of_length_le (by omega),
      List.nil_append, List.take_of_length_le (by omega)]
  rw [e]
  simp only [Decode, t1, t2, EngineDel, EngineAdd, List.length_cons, List.length_append, l1, l2]
  rw [Uint64LE_PutUint64LE (toUint64_lt c), Uint64LE_PutUint64LE (toUint64_lt a),
    toInt64_toUint64 hc, toInt64_toUint64 ha]
  simp

/-- C6 at the extreme values: the smallest `int64` column and the largest `int64` amount. -/
theorem modify_round_trip_witness :
    IsInt64 minInt64 ∧ IsInt64 maxInt64 ∧
    Decode EncodeDelete = .ok .Delete ∧
    Decode (EncodeAddDelta minInt64 maxInt64) = .ok (.AddDelta minInt64 maxInt64) :=
  ⟨by decide, by decide, modify_round_trip minInt64 maxInt64 (by decide) (by decide)⟩

example : Decode (EncodeAddDelta 199 1) = .ok (.AddDelta 199 1) := by rfl
example : Decode (EncodeAddDelta 0 (-1)) = .ok (.AddDelta 0 (-1)) := by rfl
example : Decode [] = .error .MalformedEntry := by rfl
example : Decode [3] = .error .MalformedEntry := by rfl
example : Decode (1 :: List.replicate 16 0) = .error .MalformedEntry := by rfl

/-! ## Claims on the placement-rule client -/

theorem SetGroup_url_eq (pdUrl groupId : String) :
    SetGroup.url pdUrl groupId
      = "http://" ++ pdUrl ++ "/pd/api/v1/config/placement-rule/" ++ groupId := by
  have e : "/pd/api/v1/config/placement-rule/"
      = "/pd/api/v1/" ++ "config/placement-rule" ++ "/" := by decide
  rw [e]
  simp only [SetGroup.url, String.append_assoc]

/-- C7 as stated fails: the body that `SetGroup` posts for the group `test-engine-group` has
the members `group_id`, `group_index`, `group_override` and `rules`, the tags of
`GroupBundle`, and not `id`, `index` and `override`. -/
theorem SetGroup_body_keys_counterexample :
    ((SetGroup (constantServer 200 "200 OK" (bundlesBody [])) "127.0.0.1:2379"
        "test-engine-group" World.init).2.sent.map
      fun req => (req.Method, req.URL, req.Body.map JSON.keys))
      = [("POST", "http://127.0.0.1:2379/pd/api/v1/config/placement-rule/test-engine-group",
          some ["group_id", "group_index", "group_override", "rules"])] ∧
    (SetGroup.body "test-engine-group").keys ≠ ["id", "index", "override"] := by
  decide

/-- C7 as amended: for every `pdUrl` and `groupId`, the request of `SetGroup` is a POST to
`http://pdUrl/pd/api/v1/config/placement-rule/groupId` with content type `application/json`,
whose JSON body is the object with the members `group_id = groupId`,
`group_index = 8888`, `group_override = true` and `rules = null`, in this order; it is the
only request `SetGroup` issues, and it is issued unless the URL cannot be parsed. -/
theorem SetGroup_request (c : Client) (w : World) (pdUrl groupId : String) :
    (SetGroup c pdUrl groupId w).2.sent = w.sent ++
      match c.urlError
        ("http://" ++ pdUrl ++ "/pd/api/v1/config/placement-rule/" ++ groupId) with
      | some _ => []
      | none =>
        [{ Method := "POST"
           URL := "http://" ++ pdUrl ++ "/pd/api/v1/config/placement-rule/" ++ groupId
           Header := [("Content-Type", "application/json")]
           Body := some (.obj [("group_id", .str groupId), ("group_index", .num 8888),
             ("group_override", .bool true), ("rules", .null)]) }] := by
  rw [← SetGroup_url_eq]
  simp only [SetGroup, Client.Post, http.NewRequest, Client.Do, World.enter]
  cases c.urlError (SetGroup.url pdUrl groupId) with
  | some e => simp
  | none =>
    simp only
    cases c.RoundTrip w.sent _ with
    | error e => rfl
    | ok resp => simp only; split <;> rfl

theorem Post_enter (c : Client) (url contentType : String) (body : JSON) (w : World)
    (call : Call) :
    (c.Post url contentType body (w.enter call)).1 = (c.Post url contentType body w).1 := by
  unfold Client.Post
  cases http.NewRequest c "POST" url (some body) <;> rfl

theorem Do_enter (c : Client) (req : Request) (w : World) (call : Call) :
    (c.Do req (w.enter call)).1 = (c.Do req w).1 := rfl

theorem statusCheck_of_post {c : Client} {url contentType : String} {body : JSON}
    {w : World} {resp : Response} (f : World → World)
    (h : (c.Post url contentType body w).1 = .ok resp) :
    (match c.Post url contentType body w with
      | (.error err, w) => ((.error (.err err) : Except PanicValue Unit), w)
      | (.ok resp, w) =>
        if resp.StatusCode ≠ 200 then (.error (.str resp.Status), w)
        else (.ok (), f w)).1
      = if resp.StatusCode = 200 then .ok () else .error (.str resp.Status) := by
  rcases hp : c.Post url contentType body w with ⟨r, w2⟩
  rw [hp] at h
  simp only at h
  subst h
  by_cases hc : resp.StatusCode = 200 <;> simp [hc]

theorem statusCheck_of_do {c : Client} {req : Request} {w : World} {resp : Response}
    (f : World → World) (h : (c.Do req w).1 = .ok resp) :
    (match c.Do req w with
      | (.error err, w) => ((.error (.err err) : Except PanicValue Unit), w)
      | (.ok resp, w) =>
        if resp.StatusCode ≠ 200 then (.error (.str resp.Status), w)
        else (.ok (), f w)).1
      = if resp.StatusCode = 200 then .ok () else .error (.str resp.Status) := by
  rcases hp : c.Do req w with ⟨r, w2⟩
  rw [hp] at h
  simp only at h
  subst h
  by_cases hc : resp.StatusCode = 200 <;> simp [hc]

/-- C8 (hard failure on non-200): for each of `SetGroup`, `SetRule`, `DelRule` and
`DelGroup`, when the transport returned the response `resp` to the request of the
operation, the operation returns normally if the status code of `resp` is 200 and panics
with the status text of `resp` otherwise. -/
theorem hard_failure_on_non_200 (c : Client) (w : World) (resp : Response)
    (pdUrl groupId ruleId startKeyHex endKeyHex : String) (count : Int)
    (labelConstraints : List LabelConstraint) :
    ((c.Post (SetGroup.url pdUrl groupId) "application/json" (SetGroup.body groupId) w).1
        = .ok resp →
      (SetGroup c pdUrl groupId w).1
        = if resp.StatusCode = 200 then .ok () else .error (.str resp.Status)) ∧
    ((c.Post (SetRule.url pdUrl) "application/json" (json.MarshalRule
        (SetRule.rule groupId ruleId startKeyHex endKeyHex count labelConstraints)) w).1
        = .ok resp →
      (SetRule c pdUrl groupId ruleId startKeyHex endKeyHex count labelConstraints w).1
        = if resp.StatusCode = 200 then .ok () else .error (.str resp.Status)) ∧
    (∀ req, http.NewRequest c "DELETE" (DelRule.url pdUrl groupId ruleId) none = .ok req →
      (c.Do req w).1 = .ok resp →
      (DelRule c pdUrl groupId ruleId w).1
        = if resp.StatusCode = 200 then .ok () else .error (.str resp.Status)) ∧
    (∀ req, http.NewRequest c "DELETE" (DelGroup.url pdUrl groupId) none = .ok req →
      (c.Do req w).1 = .ok resp →
      (DelGroup c pdUrl groupId w).1
        = if resp.StatusCode = 200 then .ok () else .error (.str resp.Status)) := by
  refine ⟨?_, ?_, ?_, ?_⟩
  · intro h
    rw [← Post_enter c _ _ _ w (.SetGroup pdUrl groupId)] at h
    exact statusCheck_of_post id h
  · intro h
    rw [← Post_enter c _ _ _ w
      (.SetRule pdUrl groupId ruleId startKeyHex endKeyHex count labelConstraints)] at h
    exact statusCheck_of_post _ h
  · intro req hreq h
    rw [← Do_enter c req w (.DelRule pdUrl groupId ruleId)] at h
    simp only [DelRule, hreq]
    exact statusCheck_of_do _ h
  · intro req hreq h
    rw [← Do_enter c req w (.DelGroup pdUrl groupId)] at h
    simp only [DelGroup, hreq]
    exact statusCheck_of_do id h

/-- C8 against a server that answers `201 Created` and one that answers `200 OK`: the four
operations panic with the text `201 Created` on the first and return on the second. -/
theorem hard_failure_on_non_200_witness :
    ((SetGroup (constantServer 201 "201 Created" (bundlesBody [])) "pd" "g" World.init).1
        = .error (.str "201 Created") ∧
      (SetRule (constantServer 201 "201 Created" (bundlesBody [])) "pd" "g" "r" "00" "ff" 3
        [] World.init).1 = .error (.str "201 Created") ∧
      (DelRule (constantServer 201 "201 Created" (bundlesBody [])) "pd" "g" "r"
        World.init).1 = .error (.str "201 Created") ∧
      (DelGroup (constantServer 201 "201 Created" (bundlesBody [])) "pd" "g" World.init).1
        = .error (.str "201 Created")) ∧
    ((SetGroup (constantServer 200 "200 OK" (bundlesBody [])) "pd" "g" World.init).1
        = .ok () ∧
      (SetRule (constantServer 200 "200 OK" (bundlesBody [])) "pd" "g" "r" "00" "ff" 3
        [] World.init).1 = .ok () ∧
      (DelRule (constantServer 200 "200 OK" (bundlesBody [])) "pd" "g" "r" World.init).1
        = .ok () ∧
      (DelGroup (constantServer 200 "200 OK" (bundlesBody [])) "pd" "g" World.init).1
        = .ok ()) :=
  have bad := hard_failure_on_non_200 (constantServer 201 "201 Created" (bundlesBody []))
    World.init { StatusCode := 201, Status := "201 Created", Body := bundlesBody [] }
    "pd" "g" "r" "00" "ff" 3 []
  have good := hard_failure_on_non_200 (constantServer 200 "200 OK" (bundlesBody []))
    World.init { StatusCode := 200, Status := "200 OK", Body := bundlesBody [] }
    "pd" "g" "r" "00" "ff" 3 []
  ⟨⟨bad.1 rfl, bad.2.1 rfl, bad.2.2.1 _ rfl rfl, bad.2.2.2 _ rfl rfl⟩,
    ⟨good.1 rfl, good.2.1 rfl, good.2.2.1 _ rfl rfl, good.2.2.2 _ rfl rfl⟩⟩

/-- C9 fails on the code: `ShowGroups` does not read the status code. Against a server that
answers `500 Internal Server Error` with the body `[]`, and against one that answers
`404 Not Found` with a well-formed array of one group bundle, `ShowGroups` returns normally
and prints the groups; it panics with a `JSONError` when the body is malformed JSON. -/
theorem ShowGroups_ignores_status :
    (ShowGroups (constantServer 500 "500 Internal Server Error" (bundlesBody []))
        "127.0.0.1:2379" World.init).1 = .ok () ∧
    (ShowGroups (constantServer 404 "404 Not Found"
        (bundlesBody [{ ID := "pd", Index := 0, Override := false, Rules := some [] }]))
        "127.0.0.1:2379" World.init).1 = .ok () ∧
    (ShowGroups (constantServer 200 "200 OK"
        { ReadAll := .ok (.failure (.syntaxError "unexpected end of JSON input")),
          Close := none })
        "127.0.0.1:2379" World.init).1
      = .error (.err (.JSONError (.syntaxError "unexpected end of JSON input"))) := by
  refine ⟨rfl, rfl, rfl⟩

/-! ## Claims on the driver -/

theorem SetGroup_calls (c : Client) (pdUrl groupId : String) (w : World) :
    (SetGroup c pdUrl groupId w).2.calls = w.calls ++ [.SetGroup pdUrl groupId] := by
  simp only [SetGroup, Client.Post, http.NewRequest, Client.Do, World.enter]
  cases c.urlError (SetGroup.url pdUrl groupId) with
  | some e => rfl
  | none =>
    simp only
    cases c.RoundTrip w.sent _ with
    | error e => rfl
    | ok resp => simp only; split <;> rfl

theorem DelGroup_calls (c : Client) (pdUrl groupId : String) (w : World) :
    (DelGroup c pdUrl groupId w).2.calls = w.calls ++ [.DelGroup pdUrl groupId] := by
  simp only [DelGroup, http.NewRequest, Client.Do, World.enter]
  cases c.urlError (DelGroup.url pdUrl groupId) with
  | some e => rfl
  | none =>
    simp only
    cases c.RoundTrip w.sent _ with
    | error e => rfl
    | ok resp => simp only; split <;> rfl

theorem DelRule_calls (c : Client) (pdUrl groupId ruleId : String) (w : World) :
    (DelRule c pdUrl groupId ruleId w).2.calls = w.calls ++ [.DelRule pdUrl groupId ruleId] := by
  simp only [DelRule, http.NewRequest, Client.Do, World.enter]
  cases c.urlError (DelRule.url pdUrl groupId ruleId) with
  | some e => rfl
  | none =>
    simp only
    cases c.RoundTrip w.sent _ with
    | error e => rfl
    | ok resp => simp only; split <;> rfl

theorem SetRule_calls (c : Client) (pdUrl groupId ruleId startKeyHex endKeyHex : String)
    (count : Int) (labelConstraints : List LabelConstraint) (w : World) :
    (SetRule c pdUrl groupId ruleId startKeyHex endKeyHex count labelConstraints w).2.calls
      = w.calls ++
        [.SetRule pdUrl groupId ruleId startKeyHex endKeyHex count labelConstraints] := by
  simp only [SetRule, Client.Post, http.NewRequest, Client.Do, World.enter]
  cases c.urlError (SetRule.url pdUrl) with
  | some e => rfl
  | none =>
    simp only
    cases c.RoundTrip w.sent _ with
    | error e => rfl
    | ok resp => simp only; split <;> rfl

theorem ShowGroups_calls (c : Client) (pdUrl : String) (w : World) :
    (ShowGroups c pdUrl w).2.calls = w.calls ++ [.ShowGroups pdUrl] := by
  simp only [ShowGroups, Client.Get, http.NewRequest, Client.Do, World.enter]
  cases c.urlError (ShowGroups.url pdUrl) with
  | some e => rfl
  | none =>
    simp only
    cases c.RoundTrip w.sent _ with
    | error e => rfl
    | ok resp =>
      simp only
      cases ReadJSON resp.Body with
      | error e => rfl
      | ok v => cases v <;> rfl

/-- After two statements in sequence the log is the log of the first, when it panics, or the
log of the second started from the world the first leaves. -/
theorem andThen_calls (r : Except PanicValue Unit × World)
    (next : World → Except PanicValue Unit × World) :
    (andThen r next).2.calls = r.2.calls ∨ (andThen r next).2.calls = (next r.2).2.calls := by
  rcases r with ⟨_ | _, w⟩
  · exact Or.inl rfl
  · exact Or.inr rfl

/-- A sequence without `SetRule` calls has every `SetRule` call preceded by its
`SetGroup`. -/
theorem SetGroupBeforeSetRule_of_no_SetRule {calls : List Call}
    (h : ∀ call ∈ calls, ∀ g, call.isSetRuleFor g = false) : SetGroupBeforeSetRule calls := by
  intro before after call g hc hs
  have hm : call ∈ calls := by rw [hc]; simp
  rw [h call hm g] at hs
  exact absurd hs (by simp)

/-- A sequence with a `SetGroup` for `g` in second place and nothing but a call for the
same group after it has every `SetRule` call preceded by its `SetGroup`. -/
theorem SetGroupBeforeSetRule_after_SetGroup (pdUrl g : String) (last : Call)
    (h : ∀ g2, last.isSetRuleFor g2 = true → g2 = g) :
    SetGroupBeforeSetRule [.ShowGroups pdUrl, .SetGroup pdUrl g, last] := by
  intro before after call g2 hc hs
  rcases before with _ | ⟨b1, _ | ⟨b2, _ | ⟨b3, rest⟩⟩⟩
  · simp only [List.nil_append, List.cons.injEq] at hc
    rw [← hc.1] at hs
    simp [Call.isSetRuleFor] at hs
  · simp only [List.cons_append, List.nil_append, List.cons.injEq] at hc
    rw [← hc.2.1] at hs
    simp [Call.isSetRuleFor] at hs
  · simp only [List.cons_append, List.nil_append, List.cons.injEq] at hc
    obtain ⟨_, h2, h3, _⟩ := hc
    subst h2 h3
    refine ⟨.SetGroup pdUrl g, by simp, ?_⟩
    rw [h g2 hs]
    simp [Call.isSetGroupFor]
  · simp at hc

/-- C10 as stated fails: with `-del-group` set and `-del-rule` unset, against a server that
answers `200 OK` to everything, the run calls `ShowGroups`, `DelGroup` and then `SetRule`
for the group, and no `SetGroup` precedes the `SetRule`. -/
theorem Main2_SetRule_after_DelGroup_counterexample :
    (Main2 (constantServer 200 "200 OK" (bundlesBody [])) (sampleFlags true false)
        World.init).2.calls
      = [.ShowGroups "127.0.0.1:2379",
         .DelGroup "127.0.0.1:2379" "test-engine-group",
         .SetRule "127.0.0.1:2379" "test-engine-group" "table-12345-r"
           "7480000000000030ff395f720000000000fa" "7480000000000030ff3a00000000000000f8" 3
           [{ Key := "engine", Op := "in", Values := ["test_engine"] }]] ∧
    ¬ SetGroupBeforeSetRule (Main2 (constantServer 200 "200 OK" (bundlesBody []))
        (sampleFlags true false) World.init).2.calls := by
  have e : (Main2 (constantServer 200 "200 OK" (bundlesBody [])) (sampleFlags true false)
        World.init).2.calls
      = [.ShowGroups "127.0.0.1:2379",
         .DelGroup "127.0.0.1:2379" "test-engine-group",
         .SetRule "127.0.0.1:2379" "test-engine-group" "table-12345-r"
           "7480000000000030ff395f720000000000fa" "7480000000000030ff3a00000000000000f8" 3
           [{ Key := "engine", Op := "in", Values := ["test_engine"] }]] := by
    decide
  refine ⟨e, ?_⟩
  intro h
  rw [e] at h
  obtain ⟨earlier, hmem, hset⟩ := h
    [.ShowGroups "127.0.0.1:2379", .DelGroup "127.0.0.1:2379" "test-engine-group"] []
    _ "test-engine-group" rfl (by decide)
  simp only [List.mem_cons, List.mem_singleton, List.not_mem_nil, or_false] at hmem
  rcases hmem with rfl | rfl <;> simp [Call.isSetGroupFor] at hset

/-- C10 as amended: in every run of the driver other than the runs with `-del-group` set
and `-del-rule` unset, whatever the server answers, every `SetRule` call for a group is
preceded in the run by a `SetGroup` call for the same group. -/
theorem Main2_SetGroup_before_SetRule (c : Client) (flags : Flags)
    (h : ¬ (flags.delGroup = true ∧ flags.delRule = false)) :
    SetGroupBeforeSetRule (Main2 c flags World.init).2.calls := by
  have noRule1 : ∀ call ∈ [Call.ShowGroups flags.pdAddressArgv], ∀ g,
      call.isSetRuleFor g = false := by
    intro call hm g
    simp only [List.mem_singleton] at hm
    subst hm
    rfl
  rcases Bool.eq_false_or_eq_true flags.delGroup with hg | hg
  · -- `-del-group` is set, hence `-del-rule` too: the run makes no `SetRule` call
    have hr : flags.delRule = true := by
      rcases Bool.eq_false_or_eq_true flags.delRule with hr | hr
      · exact hr
      · exact absurd ⟨hg, hr⟩ h
    simp only [Main2, hg, hr, if_true]
    have noRule2 : ∀ call ∈ [Call.ShowGroups flags.pdAddressArgv,
        Call.DelGroup flags.pdAddressArgv flags.groupIdArgv], ∀ g,
        call.isSetRuleFor g = false := by
      intro call hm g
      simp only [List.mem_cons, List.mem_singleton, List.not_mem_nil, or_false] at hm
      rcases hm with rfl | rfl <;> rfl
    rcases andThen_calls (ShowGroups c flags.pdAddressArgv World.init) _ with e1 | e1
    · rw [e1, ShowGroups_calls]
      exact SetGroupBeforeSetRule_of_no_SetRule noRule1
    · rw [e1]
      rcases andThen_calls (DelGroup c flags.pdAddressArgv flags.groupIdArgv
          (ShowGroups c flags.pdAddressArgv World.init).2) _ with e2 | e2
      · rw [e2, DelGroup_calls, ShowGroups_calls]
        exact SetGroupBeforeSetRule_of_no_SetRule noRule2
      · rw [e2, DelRule_calls, DelGroup_calls, ShowGroups_calls]
        apply SetGroupBeforeSetRule_of_no_SetRule
        intro call hm g
        simp only [World.init, List.nil_append, List.cons_append, List.mem_cons,
          List.mem_singleton, List.not_mem_nil, or_false] at hm
        rcases hm with rfl | rfl | rfl <;> rfl
  · -- `-del-group` is unset: `SetGroup` is the second call of the run
    simp only [Main2, hg, Bool.false_eq_true, if_false]
    have noRule2 : ∀ call ∈ [Call.ShowGroups flags.pdAddressArgv,
        Call.SetGroup flags.pdAddressArgv flags.groupIdArgv], ∀ g,
        call.isSetRuleFor g = false := by
      intro call hm g
      simp only [List.mem_cons, List.mem_singleton, List.not_mem_nil, or_false] at hm
      rcases hm with rfl | rfl <;> rfl
    rcases andThen_calls (ShowGroups c flags.pdAddressArgv World.init) _ with e1 | e1
    · rw [e1, ShowGroups_calls]
      exact SetGroupBeforeSetRule_of_no_SetRule noRule1
    · rw [e1]
      rcases andThen_calls (SetGroup c flags.pdAddressArgv flags.groupIdArgv
          (ShowGroups c flags.pdAddressArgv World.init).2) _ with e2 | e2
      · rw [e2, SetGroup_calls, ShowGroups_calls]
        exact SetGroupBeforeSetRule_of_no_SetRule noRule2
      · rw [e2]
        rcases Bool.eq_false_or_eq_true flags.delRule with hr | hr
        · simp only [hr, if_true]
          rw [DelRule_calls, SetGroup_calls, ShowGroups_calls]
          exact SetGroupBeforeSetRule_after_SetGroup _ _ _ (fun g2 hg => by
            simp [Call.isSetRuleFor] at hg)
        · simp only [hr, Bool.false_eq_true, if_false]
          rw [SetRule_calls, SetGroup_calls, ShowGroups_calls]
          exact SetGroupBeforeSetRule_after_SetGroup _ _ _ (fun g2 hg => by
            simp only [Call.isSetRuleFor, beq_iff_eq] at hg
            exact hg.symm)

/-- C10 as amended, for the default run (both flags unset) against a server that answers
`200 OK`: the calls are `ShowGroups`, `SetGroup` and `SetRule`. -/
theorem Main2_SetGroup_before_SetRule_witness :
    ¬ ((sampleFlags false false).delGroup = true ∧ (sampleFlags false false).delRule = false) ∧
    (Main2 (constantServer 200 "200 OK" (bundlesBody [])) (sampleFlags false false)
        World.init).2.calls.length = 3 ∧
    SetGroupBeforeSetRule (Main2 (constantServer 200 "200 OK" (bundlesBody []))
      (sampleFlags false false) World.init).2.calls :=
  ⟨by decide, by decide,
    Main2_SetGroup_before_SetRule (constantServer 200 "200 OK" (bundlesBody []))
      (sampleFlags false false) (by decide)⟩

/-! ## The rule that `SetRule` posts -/

theorem SetRule_url_eq (pdUrl : String) :
    SetRule.url pdUrl = "http://" ++ pdUrl ++ "/pd/api/v1/config/rule" := by
  have e : "/pd/api/v1/config/rule" = "/pd/api/v1/" ++ "config/rule" := by decide
  rw [e]
  simp only [SetRule.url, String.append_assoc]

/-- C11 (rule contents of `SetRule`): for every `groupId`, `ruleId`, `startKeyHex`,
`endKeyHex`, `count` and `labelConstraints`, the only request `SetRule` issues is a POST to
`http://pdUrl/pd/api/v1/config/rule` whose body is the marshalling of the `Rule` value with
role `voter`, index 0, override `true`, the given group, rule identifier, keys, count and
label constraints (the same constraints in the same order), no location labels and no
isolation level; the JSON written for it has the members `group_id`, `id`, `override`,
`start_key`, `end_key`, `role`, `count` and, when there are constraints, `label_constraints`
with one entry for each constraint in order. -/
theorem SetRule_rule_contents (c : Client) (w : World)
    (pdUrl groupId ruleId startKeyHex endKeyHex : String) (count : Int)
    (labelConstraints : List LabelConstraint) :
    let rule : Rule :=
      { GroupID := groupId, ID := ruleId, Index := 0, Override := true,
        StartKeyHex := startKeyHex, EndKeyHex := endKeyHex, Role := "voter", Count := count,
        LabelConstraints := labelConstraints, LocationLabels := [], IsolationLevel := "",
        group := none }
    (SetRule c pdUrl groupId ruleId startKeyHex endKeyHex count labelConstraints w).2.sent
      = w.sent ++
        (match c.urlError ("http://" ++ pdUrl ++ "/pd/api/v1/config/rule") with
        | some _ => []
        | none =>
          [{ Method := "POST"
             URL := "http://" ++ pdUrl ++ "/pd/api/v1/config/rule"
             Header := [("Content-Type", "application/json")]
             Body := some (json.MarshalRule rule) }]) ∧
    json.MarshalRule rule
      = .obj ([("group_id", .str groupId), ("id", .str ruleId), ("override", .bool true),
          ("start_key", .str startKeyHex), ("end_key", .str endKeyHex),
          ("role", .str "voter"), ("count", .num count)]
        ++ if labelConstraints.isEmpty then []
           else [("label_constraints",
             .arr (labelConstraints.map json.MarshalLabelConstraint))]) := by
  intro rule
  refine ⟨?_, ?_⟩
  · rw [← SetRule_url_eq]
    simp only [SetRule, Client.Post, http.NewRequest, Client.Do, World.enter, World.print]
    cases c.urlError (SetRule.url pdUrl) with
    | some e => simp
    | none =>
      simp only
      cases c.RoundTrip w.sent _ with
      | error e => rfl
      | ok resp => simp only; split <;> rfl
  · simp only [json.MarshalRule, json.omitempty, rule]
    cases labelConstraints <;> simp

example : json.MarshalRule (SetRule.rule "g" "r" "00" "ff" 3
    [{ Key := "engine", Op := "in", Values := ["test_engine"] }])
    = .obj [("group_id", .str "g"), ("id", .str "r"), ("override", .bool true),
        ("start_key", .str "00"), ("end_key", .str "ff"), ("role", .str "voter"),
        ("count", .num 3),
        ("label_constraints", .arr [.obj [("key", .str "engine"), ("op", .str "in"),
          ("values", .arr [.str "test_engine"])]])] := by
  rfl

/-! ## The modification log encoding is unambiguous -/

theorem PutUint64LE_toUint64_injective {v1 v2 : Int} (h1 : IsInt64 v1) (h2 : IsInt64 v2)
    (h : PutUint64LE (toUint64 v1) = PutUint64LE (toUint64 v2)) : v1 = v2 := by
  have hu := congrArg Uint64LE h
  rw [Uint64LE_PutUint64LE (toUint64_lt v1), Uint64LE_PutUint64LE (toUint64_lt v2)] at hu
  have hi := congrArg toInt64 hu
  rwa [toInt64_toUint64 h1, toInt64_toUint64 h2] at hi

theorem TableModifyAdd_Encode_eq (m : TableModifyAdd) :
    m.Encode = 2 :: (PutUint64LE (toUint64 m.colID) ++ PutUint64LE (toUint64 m.val)) := by
  simp [TableModifyAdd.Encode, EngineAdd]

/-- C12 (the encoding is unambiguous): two `TableModifyAdd` values with `int64` fields have
the same encoding only if they have the same column and the same value; the encoding of a
`TableModifyAdd` is never the encoding of a `TableModifyDel`, and its first byte is not the
encoding of a `TableModifyDel` either. -/
theorem modify_encoding_unambiguous (m1 m2 : TableModifyAdd) (d : TableModifyDel)
    (h1c : IsInt64 m1.colID) (h1v : IsInt64 m1.val)
    (h2c : IsInt64 m2.colID) (h2v : IsInt64 m2.val) :
    (m1.Encode = m2.Encode → m1.colID = m2.colID ∧ m1.val = m2.val) ∧
    m1.Encode ≠ d.Encode ∧
    m1.Encode.take 1 ≠ d.Encode := by
  refine ⟨?_, ?_, ?_⟩
  · intro h
    rw [TableModifyAdd_Encode_eq, TableModifyAdd_Encode_eq] at h
    have h2 := List.tail_eq_of_cons_eq h
    obtain ⟨hc, hv⟩ := List.append_inj h2 rfl
    exact ⟨PutUint64LE_toUint64_injective h1c h2c hc,
      PutUint64LE_toUint64_injective h1v h2v hv⟩
  · rw [TableModifyAdd_Encode_eq]
    simp [TableModifyDel.Encode, EngineDel]
  · rw [TableModifyAdd_Encode_eq]
    simp [TableModifyDel.Encode, EngineDel]

/-- C12 at `(-1, 0)` and `(0, -1)`: the two encodings differ, and neither they nor their
first byte are the encoding of a deletion. -/
theorem modify_encoding_unambiguous_witness :
    IsInt64 (-1) ∧ IsInt64 0 ∧
    (MakeTableModifyAdd none (-1) 0).Encode ≠ (MakeTableModifyAdd none 0 (-1)).Encode ∧
    (MakeTableModifyAdd none (-1) 0).Encode ≠ (MakeTableModifyDel none).Encode ∧
    (MakeTableModifyAdd none (-1) 0).Encode.take 1 ≠ (MakeTableModifyDel none).Encode :=
  have t := modify_encoding_unambiguous (MakeTableModifyAdd none (-1) 0)
    (MakeTableModifyAdd none 0 (-1)) (MakeTableModifyDel none)
    (by decide) (by decide) (by decide) (by decide)
  ⟨by decide, by decide, fun h => absurd (t.1 h).1 (by decide), t.2.1, t.2.2⟩

end ClientGo
